import Mathlib

/-!
Verification of the chat-and-file-sharing TCP client.

The development shallowly embeds the three source files
(client/src/lib.rs, shared/src/lib.rs, shared/src/communication/json.rs)
together with the components they use.  Parts of the repository that are
referenced from those files but whose sources are not available
(the capped reader, the message codec, the sharer registry / session trait)
are modelled from the specification; each such definition carries a doc
comment saying so.

Layers:
  1. a JSON value model with a compact serializer and a streaming
     front-parser (the model of serde_json's StreamDeserializer);
  2. the frame reader (JsonReader::read over a capped reader);
  3. the frame writer (JsonWriter::write over a TCP stream);
  4. the message codec (typed protocol messages to/from JSON values);
  5. the sharer registry and the client session model with an action trace;
  6. the dispatch handlers and the receive loop from client/src/lib.rs.
-/

/-- JSON values, the model of serde_json::Value as used by the protocol
(no floating point numbers appear on this wire). -/
inductive Json where
  | null : Json
  | bool (b : Bool) : Json
  | num (n : Int) : Json
  | str (s : String) : Json
  | arr (elems : List Json) : Json
  | obj (members : List (String × Json)) : Json

/-- Decimal digit character for a value below ten. -/
def digitChar (d : Nat) : Char := Char.ofNat (48 + d)

/-- Decimal digits of a natural number, most significant first. -/
def natChars (n : Nat) : List Char :=
  if _h : n < 10 then [digitChar n]
  else natChars (n / 10) ++ [digitChar (n % 10)]
decreasing_by exact Nat.div_lt_self (by omega) (by omega)

/-- Decimal rendering of an integer, minus sign first when negative. -/
def intChars (n : Int) : List Char :=
  if n < 0 then '-' :: natChars n.natAbs else natChars n.toNat

/-- Lowercase hexadecimal digit character for a value below sixteen. -/
def hexDigitChar (d : Nat) : Char :=
  if d < 10 then Char.ofNat (48 + d) else Char.ofNat (87 + d)

/-- Hexadecimal escape of a control character with the given code. -/
def hexEscape (code : Nat) : List Char :=
  '\\' :: 'u' :: '0' :: '0' :: hexDigitChar (code / 16) :: [hexDigitChar (code % 16)]

/-- JSON string escaping of one character, following serde_json:
quote and backslash get a backslash escape, the five common control
characters get their short forms, other control characters get a
hexadecimal escape, everything else is emitted as itself. -/
def escChar (c : Char) : List Char :=
  if c = '"' then ['\\', '"']
  else if c = '\\' then ['\\', '\\']
  else if c = '\n' then ['\\', 'n']
  else if c = '\t' then ['\\', 't']
  else if c = '\r' then ['\\', 'r']
  else if c = '\x08' then ['\\', 'b']
  else if c = '\x0c' then ['\\', 'f']
  else if c.toNat < 32 then hexEscape c.toNat
  else [c]

/-- Escape a whole character list. -/
def escList : List Char → List Char
  | [] => []
  | c :: cs => escChar c ++ escList cs

/-- Serialized JSON string: opening quote, escaped body, closing quote. -/
def serStr (s : String) : List Char := '"' :: (escList s.data ++ ['"'])

mutual

/-- Compact serialization of a JSON value (serde_json's to_string: no
whitespace between tokens). -/
def serJson : Json → List Char
  | .num n => intChars n
  | .null => "null".data
  | .bool true => "true".data
  | .bool false => "false".data
  | .str s => serStr s
  | .arr xs => '[' :: (serElems xs ++ [']'])
  | .obj ms => '{' :: (serMembers ms ++ ['}'])

/-- Serialized array elements: first element, then comma-led rest. -/
def serElems : List Json → List Char
  | [] => []
  | x :: xs => serJson x ++ serElemsRest xs

/-- Serialized array elements after the first: each is comma-led. -/
def serElemsRest : List Json → List Char
  | [] => []
  | x :: xs => ',' :: (serJson x ++ serElemsRest xs)

/-- Serialized object members: first member, then comma-led rest. -/
def serMembers : List (String × Json) → List Char
  | [] => []
  | (k, v) :: ms => serStr k ++ ':' :: (serJson v ++ serMembersRest ms)

/-- Serialized object members after the first: each is comma-led. -/
def serMembersRest : List (String × Json) → List Char
  | [] => []
  | (k, v) :: ms => ',' :: (serStr k ++ ':' :: (serJson v ++ serMembersRest ms))

end

/-- Numeric value of a decimal digit list, most significant first. -/
def digitsToNat (ds : List Char) : Nat :=
  ds.foldl (fun a c => a * 10 + (c.toNat - 48)) 0

/-- Front-parse of a JSON number: an optional minus sign followed by a
nonempty run of digits; consumes the longest digit run, as serde does. -/
def parseNum (s : List Char) : Option (Int × List Char) :=
  if s.head? = some '-' then
    let ds := s.tail.takeWhile Char.isDigit
    if ds.isEmpty then none
    else some (-(digitsToNat ds : Int), s.tail.dropWhile Char.isDigit)
  else
    let ds := s.takeWhile Char.isDigit
    if ds.isEmpty then none
    else some ((digitsToNat ds : Int), s.dropWhile Char.isDigit)

/-- Numeric value of one lowercase hexadecimal digit character. -/
def hexVal (c : Char) : Nat :=
  if c.isDigit then c.toNat - 48 else c.toNat - 87

/-- Hexadecimal digit test covering what the serializer emits
(decimal digits and lowercase letters). -/
def isHexDig (c : Char) : Bool :=
  c.isDigit || ('a' ≤ c && c ≤ 'f')

/-- Inverse of the short escape forms. -/
def unescChar (c : Char) : Option Char :=
  if c = '"' then some '"'
  else if c = '\\' then some '\\'
  else if c = '/' then some '/'
  else if c = 'n' then some '\n'
  else if c = 't' then some '\t'
  else if c = 'r' then some '\r'
  else if c = 'b' then some '\x08'
  else if c = 'f' then some '\x0c'
  else none

/-- Front-parse of a JSON string body (the part after the opening quote):
collects characters until an unescaped closing quote, undoing escapes. -/
def parseStrBody : List Char → Option (List Char × List Char)
  | [] => none
  | c :: r =>
    if c = '"' then some ([], r)
    else if c = '\\' then
      match r with
      | [] => none
      | e :: r2 =>
        if e = 'u' then
          match r2 with
          | h1 :: h2 :: h3 :: h4 :: r3 =>
            if isHexDig h1 && isHexDig h2 && isHexDig h3 && isHexDig h4 then
              (parseStrBody r3).map fun (cs, rest) =>
                (Char.ofNat (hexVal h1 * 4096 + hexVal h2 * 256 + hexVal h3 * 16 + hexVal h4) :: cs, rest)
            else none
          | _ => none
        else
          match unescChar e with
          | some d => (parseStrBody r2).map fun (cs, rest) => (d :: cs, rest)
          | none => none
    else (parseStrBody r).map fun (cs, rest) => (c :: cs, rest)
termination_by s => s.length
decreasing_by all_goals (simp_all; try omega)

mutual

/-- Front-parse of one JSON value: reads exactly one complete value from
the front of the input and returns it with the unconsumed remainder.
This is the model of serde_json parsing one Value from a byte source.
The fuel argument only serves termination; every lemma below supplies
enough of it. -/
def parseVal : Nat → List Char → Option (Json × List Char)
  | 0, _ => none
  | _ + 1, [] => none
  | f + 1, c :: r =>
    if c = '{' then
      (parseMembersFirst f r).map fun (ms, rest) => (Json.obj ms, rest)
    else if c = '[' then
      (parseElemsFirst f r).map fun (xs, rest) => (Json.arr xs, rest)
    else if c = '"' then
      (parseStrBody r).map fun (cs, rest) => (Json.str (String.mk cs), rest)
    else if c = 'n' then
      match r with
      | 'u' :: 'l' :: 'l' :: rest => some (Json.null, rest)
      | _ => none
    else if c = 't' then
      match r with
      | 'r' :: 'u' :: 'e' :: rest => some (Json.bool true, rest)
      | _ => none
    else if c = 'f' then
      match r with
      | 'a' :: 'l' :: 's' :: 'e' :: rest => some (Json.bool false, rest)
      | _ => none
    else if c = '-' ∨ c.isDigit then
      (parseNum (c :: r)).map fun (n, rest) => (Json.num n, rest)
    else none

/-- Array elements directly after the opening bracket: either a closing
bracket, or a first element followed by the comma-led rest. -/
def parseElemsFirst : Nat → List Char → Option (List Json × List Char)
  | 0, _ => none
  | _ + 1, [] => none
  | f + 1, c :: r =>
    if c = ']' then some ([], r)
    else
      match parseVal f (c :: r) with
      | some (x, rest) =>
        (parseElemsRest f rest).map fun (xs, rest2) => (x :: xs, rest2)
      | none => none

/-- Array elements after the first: a closing bracket ends the array,
a comma leads one more element. -/
def parseElemsRest : Nat → List Char → Option (List Json × List Char)
  | 0, _ => none
  | _ + 1, [] => none
  | f + 1, c :: r =>
    if c = ']' then some ([], r)
    else if c = ',' then
      match parseVal f r with
      | some (x, rest) =>
        (parseElemsRest f rest).map fun (xs, rest2) => (x :: xs, rest2)
      | none => none
    else none

/-- Object members directly after the opening brace. -/
def parseMembersFirst : Nat → List Char → Option (List (String × Json) × List Char)
  | 0, _ => none
  | _ + 1, [] => none
  | f + 1, c :: r =>
    if c = '}' then some ([], r)
    else if c = '"' then
      match parseStrBody r with
      | some (ks, rest) =>
        match rest with
        | ':' :: rest2 =>
          match parseVal f rest2 with
          | some (v, rest3) =>
            (parseMembersRest f rest3).map fun (ms, rest4) => ((String.mk ks, v) :: ms, rest4)
          | none => none
        | _ => none
      | none => none
    else none

/-- Object members after the first: a closing brace ends the object,
a comma leads one more member. -/
def parseMembersRest : Nat → List Char → Option (List (String × Json) × List Char)
  | 0, _ => none
  | _ + 1, [] => none
  | f + 1, c :: r =>
    if c = '}' then some ([], r)
    else if c = ',' then
      match r with
      | '"' :: r2 =>
        match parseStrBody r2 with
        | some (ks, rest) =>
          match rest with
          | ':' :: rest2 =>
            match parseVal f rest2 with
            | some (v, rest3) =>
              (parseMembersRest f rest3).map fun (ms, rest4) => ((String.mk ks, v) :: ms, rest4)
            | none => none
          | _ => none
        | none => none
      | _ => none
    else none

end

/-- Front-parse with the fuel any input can need. -/
def parseOne (s : List Char) : Option (Json × List Char) :=
  parseVal (2 * s.length + 1) s

/-- Separation condition: a serialized value followed by this remainder
parses back unambiguously.  Only numbers can be extended by what follows,
and only by a digit. -/
def sepOk : Json → List Char → Prop
  | .num _, rest => ∀ c, rest.head? = some c → c.isDigit = false
  | _, _ => True

/-- A serialized value, followed by an admissible remainder, front-parses
to exactly that value, leaving exactly that remainder, for any fuel at
least twice the input length plus one. -/
def SerParses (v : Json) : Prop :=
  ∀ rest f, 2 * (serJson v ++ rest).length + 1 ≤ f → sepOk v rest →
    parseVal f (serJson v ++ rest) = some (v, rest)

/-! Layer 2: the frame reader (JsonReader::read over a capped reader). -/

/-- Errors surfaced by the frame reader, mirroring the two failing arms of
JsonReader::read: the serde iterator yielding an error, and the iterator
being exhausted at once (ErrorKind::NothingToRead). -/
inductive ReadErrorKind where
  | nothingToRead : ReadErrorKind
  | malformed : ReadErrorKind
deriving DecidableEq

/-- Modelled from the spec: capped_reader.rs is not among the available
sources (json.rs only uses it through CappedRead).  Per spec (4.1) the
capped reader wraps the TCP stream, hands bytes to the streaming parser on
demand while counting them, reports end of input once CAP bytes have been
served since the last clear (bounding buffered data), and clear resets the
count after a successful parse.  The state records the byte chunks the
peer's stream will deliver and the running count.  A TCP stream is a byte
stream: chunk boundaries affect only when a blocking read wakes up, never
which bytes are seen or their order. -/
structure CappedReader where
  chunks : List (List Char)
  filled : Nat
deriving DecidableEq

/-- All bytes still to be delivered, in arrival order. -/
def CappedReader.pending (r : CappedReader) : List Char := r.chunks.flatten

/-- The bytes one read call can see: served on demand, at most cap - filled
of them before the capped reader reports end of input. -/
def CappedReader.avail (cap : Nat) (r : CappedReader) : List Char :=
  r.pending.take (cap - r.filled)

/-- JsonReader::read from src/shared/src/communication/json.rs: drive the
streaming parser over the capped reader; on Some(Ok(v)) clear the capped
reader and return Ok(v); on Some(Err) return the error; on None return
NothingToRead. -/
def jsonReaderRead (cap : Nat) (r : CappedReader) :
    Except ReadErrorKind (Json × CappedReader) :=
  let s := CappedReader.avail cap r
  if s.isEmpty then Except.error ReadErrorKind.nothingToRead
  else
    match parseOne s with
    | some (v, rest) =>
      Except.ok (v, { chunks := [r.pending.drop (s.length - rest.length)], filled := 0 })
    | none => Except.error ReadErrorKind.malformed

/-- k successive calls to JsonReader::read, collecting the values. -/
def readValues (cap : Nat) : Nat → CappedReader → Except ReadErrorKind (List Json)
  | 0, _ => Except.ok []
  | k + 1, r =>
    match jsonReaderRead cap r with
    | Except.ok (v, r2) => (readValues cap k r2).map fun vs => v :: vs
    | Except.error e => Except.error e

/-! Layer 3: the frame writer (JsonWriter::write over a TCP stream). -/

/-- A TCP stream endpoint as the writer sees it: the bytes that reached
the wire so far, and how many bytes the socket accepts at each successive
write call.  io::Write::write may accept fewer bytes than offered (a short
write) and reports the accepted count in its Ok value; an empty capacity
list means every following call accepts everything offered. -/
structure TcpStream where
  wire : List Char
  acceptPerCall : List Nat
deriving DecidableEq

/-- One write call: accept up to the socket's current capacity, append the
accepted bytes to the wire, and return the accepted count. -/
def TcpStream.writeCall (s : TcpStream) (bytes : List Char) : Nat × TcpStream :=
  match s.acceptPerCall with
  | [] => (bytes.length, { s with wire := s.wire ++ bytes })
  | cap :: caps =>
    (min cap bytes.length,
      { wire := s.wire ++ bytes.take (min cap bytes.length), acceptPerCall := caps })

/-- JsonWriter::write from src/shared/src/communication/json.rs: serialize
the value, call write once on the stream — discarding the accepted count
it returns — then flush and return Ok.  (The write and flush error paths
return early with Err through the question-mark operator; the succeeding
path modelled here is the one the partial-write claim is about.  flush
transmits what write accepted; it cannot resend bytes write never took.) -/
def jsonWriterWrite (s : TcpStream) (message : Json) : Except Unit (Unit × TcpStream) :=
  let bytes := serJson message
  let r := s.writeCall bytes
  Except.ok ((), r.2)

/-! Layer 4: the message codec.

Modelled from the spec: connection/messages.rs is not among the available
sources (client/src/lib.rs imports CommonMessage, ClientMessage and
ServerMessage from it).  Wire messages are the tagged variants of the
spec's data model; encoding produces a JSON object with a "type"
discriminator, decoding dispatches on it, checks field shapes and ignores
unknown or extra fields. -/

/-- The message usable in both directions: one chunk of file data. -/
inductive CommonMessage where
  | chunk (data : List (Fin 256)) (id : Nat)
deriving DecidableEq

/-- Client-to-server messages. -/
inductive ClientMessage where
  | text (text : String)
  | rename (newName : String)
  | requestFileUpload (name : String) (size : Nat) (id : Nat)
  | requestFileDownload (name : String)
  | agreeFileDownload (id : Nat)
  | leave
  | common (common : CommonMessage)
deriving DecidableEq

/-- Server-to-client messages acted on by the dispatch logic (the client
treats any other server message opaquely, printing it). -/
inductive ServerMessage where
  | common (common : CommonMessage)
  | agreeFileUpload (id : Nat)
  | declineFileUpload (id : Nat) (reason : String)
  | agreeFileDownload (name : String) (size : Nat) (id : Nat)
  | declineFileDownload (name : String) (reason : String)
deriving DecidableEq

/-- First field of an object under a key; unknown and extra fields are
simply never looked at. -/
def Json.getField : Json → String → Option Json
  | .obj ms, key => ms.lookup key
  | _, _ => none

/-- Shape check: a JSON string. -/
def Json.asString : Json → Option String
  | .str s => some s
  | _ => none

/-- Shape check: an unsigned integer (a negative number is the wrong
shape, as the spec requires for fields like size). -/
def Json.asUNat : Json → Option Nat
  | .num n => if 0 ≤ n then some n.toNat else none
  | _ => none

/-- Shape check: one byte of file data. -/
def Json.asByte : Json → Option (Fin 256)
  | .num n => if h : 0 ≤ n ∧ n < 256 then some ⟨n.toNat, by omega⟩ else none
  | _ => none

/-- Shape check on each element of a byte array. -/
def Json.asBytesList : List Json → Option (List (Fin 256))
  | [] => some []
  | x :: xs => do
    let b ← Json.asByte x
    let bs ← Json.asBytesList xs
    pure (b :: bs)

/-- Shape check: an array of bytes. -/
def Json.asBytes : Json → Option (List (Fin 256))
  | .arr xs => Json.asBytesList xs
  | _ => none

/-- Read a field through a shape check; a missing or wrong-shaped field is
a MalformedMessage-style error naming the field. -/
def fieldOf (j : Json) (key : String) (shape : Json → Option α) : Except String α :=
  match (j.getField key).bind shape with
  | some a => Except.ok a
  | none => Except.error key

def encodeByte (b : Fin 256) : Json := Json.num (b.val : Int)

def encodeCommon : CommonMessage → Json
  | .chunk data id =>
    Json.obj [("type", Json.str "chunk"),
              ("data", Json.arr (data.map encodeByte)),
              ("id", Json.num (id : Int))]

def encodeClient : ClientMessage → Json
  | .text t => Json.obj [("type", Json.str "text"), ("text", Json.str t)]
  | .rename n => Json.obj [("type", Json.str "rename"), ("new_name", Json.str n)]
  | .requestFileUpload name size id =>
      Json.obj [("type", Json.str "request_file_upload"), ("name", Json.str name),
                ("size", Json.num (size : Int)), ("id", Json.num (id : Int))]
  | .requestFileDownload name =>
      Json.obj [("type", Json.str "request_file_download"), ("name", Json.str name)]
  | .agreeFileDownload id =>
      Json.obj [("type", Json.str "agree_file_download"), ("id", Json.num (id : Int))]
  | .leave => Json.obj [("type", Json.str "leave")]
  | .common c => encodeCommon c

def encodeServer : ServerMessage → Json
  | .common c => encodeCommon c
  | .agreeFileUpload id =>
      Json.obj [("type", Json.str "agree_file_upload"), ("id", Json.num (id : Int))]
  | .declineFileUpload id reason =>
      Json.obj [("type", Json.str "decline_file_upload"), ("id", Json.num (id : Int)),
                ("reason", Json.str reason)]
  | .agreeFileDownload name size id =>
      Json.obj [("type", Json.str "agree_file_download"), ("name", Json.str name),
                ("size", Json.num (size : Int)), ("id", Json.num (id : Int))]
  | .declineFileDownload name reason =>
      Json.obj [("type", Json.str "decline_file_download"), ("name", Json.str name),
                ("reason", Json.str reason)]

def decodeCommon (j : Json) : Except String CommonMessage := do
  let data ← fieldOf j "data" Json.asBytes
  let id ← fieldOf j "id" Json.asUNat
  pure (CommonMessage.chunk data id)

def decodeClient (j : Json) : Except String ClientMessage := do
  let tag ← fieldOf j "type" Json.asString
  if tag = "text" then
    let t ← fieldOf j "text" Json.asString
    pure (ClientMessage.text t)
  else if tag = "rename" then
    let n ← fieldOf j "new_name" Json.asString
    pure (ClientMessage.rename n)
  else if tag = "request_file_upload" then
    let name ← fieldOf j "name" Json.asString
    let size ← fieldOf j "size" Json.asUNat
    let id ← fieldOf j "id" Json.asUNat
    pure (ClientMessage.requestFileUpload name size id)
  else if tag = "request_file_download" then
    let name ← fieldOf j "name" Json.asString
    pure (ClientMessage.requestFileDownload name)
  else if tag = "agree_file_download" then
    let id ← fieldOf j "id" Json.asUNat
    pure (ClientMessage.agreeFileDownload id)
  else if tag = "leave" then
    pure ClientMessage.leave
  else if tag = "chunk" then
    let c ← decodeCommon j
    pure (ClientMessage.common c)
  else Except.error "type"

def decodeServer (j : Json) : Except String ServerMessage := do
  let tag ← fieldOf j "type" Json.asString
  if tag = "chunk" then
    let c ← decodeCommon j
    pure (ServerMessage.common c)
  else if tag = "agree_file_upload" then
    let id ← fieldOf j "id" Json.asUNat
    pure (ServerMessage.agreeFileUpload id)
  else if tag = "decline_file_upload" then
    let id ← fieldOf j "id" Json.asUNat
    let reason ← fieldOf j "reason" Json.asString
    pure (ServerMessage.declineFileUpload id reason)
  else if tag = "agree_file_download" then
    let name ← fieldOf j "name" Json.asString
    let size ← fieldOf j "size" Json.asUNat
    let id ← fieldOf j "id" Json.asUNat
    pure (ServerMessage.agreeFileDownload name size id)
  else if tag = "decline_file_download" then
    let name ← fieldOf j "name" Json.asString
    let reason ← fieldOf j "reason" Json.asString
    pure (ServerMessage.declineFileDownload name reason)
  else Except.error "type"

/-! Layer 5: the sharer registry and the client session.

Modelled from the spec: connection.rs (the ClientSession trait and its
implementation over the shared registry) and helpers.rs are not among the
available sources; client/src/lib.rs drives them through the operations
below.  The registry keeps promoted sharers keyed by id and pending
(unpromoted) sharers keyed by name; both tables are maps, so binding a key
replaces any previous binding.  A session couples the registry with the
socket and records an action trace: every operation a handler performs, in
program order. -/

inductive Direction where
  | upload : Direction
  | download : Direction
deriving DecidableEq

/-- One in-flight or pending transfer.  The open file handle is modelled
by its data: the bytes written so far (download) or the file's contents
(upload). -/
structure Sharer where
  name : String
  path : String
  size : Nat
  received : Nat
  direction : Direction
  fileData : List (Fin 256)
deriving DecidableEq

structure Registry where
  byId : List (Nat × Sharer)
  byName : List (String × Sharer)
deriving DecidableEq

/-- prepare: register an Unpromoted sharer under its name; fails if a
sharer with that name is already pending. -/
def Registry.prepare (reg : Registry) (path : String) (contents : List (Fin 256))
    (name : String) (dir : Direction) : Option Registry :=
  if (reg.byName.lookup name).isSome then none
  else some { reg with byName :=
    (name, { name := name, path := path, size := 0, received := 0,
             direction := dir, fileData := contents }) :: reg.byName }

/-- promote: move the pending sharer for this name into the id table,
setting its size; silently a no-op when no such pending sharer exists. -/
def Registry.promote (reg : Registry) (name : String) (size id : Nat) : Registry :=
  match reg.byName.lookup name with
  | none => reg
  | some s =>
    { byId := (id, { s with size := size }) :: (reg.byId.filter fun p => p.1 ≠ id),
      byName := reg.byName.filter fun p => p.1 ≠ name }

/-- remove_by_id: atomically take the sharer for this id out of the table;
None when absent. -/
def Registry.removeById (reg : Registry) (id : Nat) : Option Sharer × Registry :=
  match reg.byId.lookup id with
  | none => (none, reg)
  | some s => (some s, { reg with byId := reg.byId.filter fun p => p.1 ≠ id })

/-- remove_unpromoted_by_name: symmetric removal on the pending table. -/
def Registry.removeUnpromoted (reg : Registry) (name : String) :
    Option Sharer × Registry :=
  match reg.byName.lookup name with
  | none => (none, reg)
  | some s => (some s, { reg with byName := reg.byName.filter fun p => p.1 ≠ name })

/-- free_id: an id not currently in use in the id table (one past the
largest id in use). -/
def Registry.freeId (reg : Registry) : Nat :=
  (reg.byId.map Prod.fst).foldr max 0 + 1

/-- accept_chunk: append the data to the file of the sharer at this id,
advance received, and report whether received equals size; an id with no
registered sharer is a no-op reporting false, never an error. -/
def Registry.acceptChunk (reg : Registry) (data : List (Fin 256)) (id : Nat) :
    Bool × Registry :=
  match reg.byId.lookup id with
  | none => (false, reg)
  | some s =>
    let s2 := { s with received := s.received + data.length,
                       fileData := s.fileData ++ data }
    (s2.received == s2.size,
      { reg with byId := reg.byId.map fun p => if p.1 = id then (p.1, s2) else p })

/-- TraceActions a session performs, recorded in program order. -/
inductive TraceAction where
  | freedId (id : Nat)
  | prepared (path name : String)
  | promoted (name : String) (size id : Nat)
  | removedById (id : Nat)
  | removedUnpromoted (name : String)
  | acceptedChunk (data : List (Fin 256)) (id : Nat)
  | wrote (m : ClientMessage)
  | printed (line : String)
  | spawnedSend (s : Sharer)
deriving DecidableEq

/-- The client session handle: the shared registry, whether socket writes
currently fail, the local filesystem (path to contents), and the action
trace. -/
structure Conn where
  reg : Registry
  netDown : Bool
  fs : List (String × List (Fin 256))
  trace : List TraceAction
deriving DecidableEq

inductive SessionErr where
  | writeFailed : SessionErr
  | alreadyPending : SessionErr
  | fileMissing : SessionErr
deriving DecidableEq

/-- write_message: codec plus raw send; fails when the transport is down. -/
def Conn.writeMessage (c : Conn) (m : ClientMessage) : Except SessionErr Conn :=
  if c.netDown then Except.error SessionErr.writeFailed
  else Except.ok { c with trace := c.trace ++ [TraceAction.wrote m] }

def Conn.promoteSharer (c : Conn) (name : String) (size id : Nat) :
    Except SessionErr Conn :=
  Except.ok { c with reg := c.reg.promote name size id,
                     trace := c.trace ++ [TraceAction.promoted name size id] }

def Conn.removeSharer (c : Conn) (id : Nat) :
    Except SessionErr (Option Sharer × Conn) :=
  let r := c.reg.removeById id
  Except.ok (r.1, { c with reg := r.2, trace := c.trace ++ [TraceAction.removedById id] })

def Conn.removeUnpromotedSharer (c : Conn) (name : String) :
    Except SessionErr (Option Sharer × Conn) :=
  let r := c.reg.removeUnpromoted name
  Except.ok (r.1, { c with reg := r.2,
                           trace := c.trace ++ [TraceAction.removedUnpromoted name] })

def Conn.acceptChunk (c : Conn) (data : List (Fin 256)) (id : Nat) :
    Except SessionErr (Bool × Conn) :=
  let r := c.reg.acceptChunk data id
  Except.ok (r.1, { c with reg := r.2,
                           trace := c.trace ++ [TraceAction.acceptedChunk data id] })

def Conn.freeId (c : Conn) : Except SessionErr (Nat × Conn) :=
  Except.ok (c.reg.freeId, { c with trace := c.trace ++ [TraceAction.freedId c.reg.freeId] })

def Conn.prepareSharer (c : Conn) (path : String) (contents : List (Fin 256))
    (name : String) (dir : Direction) : Except SessionErr Conn :=
  match c.reg.prepare path contents name dir with
  | none => Except.error SessionErr.alreadyPending
  | some reg2 => Except.ok { c with reg := reg2,
                                    trace := c.trace ++ [TraceAction.prepared path name] }

def Conn.printLine (c : Conn) (line : String) : Conn :=
  { c with trace := c.trace ++ [TraceAction.printed line] }

/-- Modelled from the spec: helpers.rs (send_file_non_blocking) is not
among the sources.  It dispatches a background chunked sender for the
sharer; the dispatching call itself only spawns a task and returns. -/
def sendFileNonBlocking (c : Conn) (sharer : Sharer) : Except SessionErr Conn :=
  Except.ok { c with trace := c.trace ++ [TraceAction.spawnedSend sharer] }

/-- MessageProcessing from shared/communication (declaration not among the
sources): the outcomes the client's handlers use. -/
inductive MessageProcessing where
  | proceed : MessageProcessing
  | stop : MessageProcessing
deriving DecidableEq

/-! Layer 6: the dispatch handlers of client/src/lib.rs, translated
one to one. -/

/-- handle_server_chunk (client/src/lib.rs). -/
def handleServerChunk (c : Conn) (data : List (Fin 256)) (id : Nat) :
    Except SessionErr (Conn × MessageProcessing) := do
  let (done, c1) ← c.acceptChunk data id
  if !done then
    pure (c1, MessageProcessing.proceed)
  else
    let (opt, c2) ← c1.removeSharer id
    match opt with
    | none => pure (c2, MessageProcessing.proceed)
    | some sharer =>
      pure (c2.printLine ("Downloaded " ++ sharer.name ++ " and saved to " ++ sharer.path),
        MessageProcessing.proceed)

/-- handle_server_common_message. -/
def handleServerCommonMessage (c : Conn) (m : CommonMessage) :
    Except SessionErr (Conn × MessageProcessing) :=
  match m with
  | .chunk data id => handleServerChunk c data id

/-- handle_server_agree_file_upload. -/
def handleServerAgreeFileUpload (c : Conn) (id : Nat) :
    Except SessionErr (Conn × MessageProcessing) := do
  let (opt, c1) ← c.removeSharer id
  match opt with
  | none => pure (c1, MessageProcessing.proceed)
  | some sharer => do
    let c2 ← sendFileNonBlocking c1 sharer
    pure (c2, MessageProcessing.proceed)

/-- handle_server_decline_file_upload. -/
def handleServerDeclineFileUpload (c : Conn) (id : Nat) (reason : String) :
    Except SessionErr (Conn × MessageProcessing) := do
  let (opt, c1) ← c.removeSharer id
  match opt with
  | none => pure (c1, MessageProcessing.proceed)
  | some sharer =>
    pure (c1.printLine ("Nah, wait with your " ++ sharer.name ++ ". " ++ reason),
      MessageProcessing.proceed)

/-- handle_server_agree_file_download: promote the pending download, then
reply AgreeFileDownload with the same id. -/
def handleServerAgreeFileDownload (c : Conn) (name : String) (size id : Nat) :
    Except SessionErr (Conn × MessageProcessing) := do
  let c1 ← c.promoteSharer name size id
  let response := ClientMessage.agreeFileDownload id
  let c2 ← c1.writeMessage response
  pure (c2, MessageProcessing.proceed)

/-- handle_server_decline_file_download. -/
def handleServerDeclineFileDownload (c : Conn) (name : String) (reason : String) :
    Except SessionErr (Conn × MessageProcessing) := do
  let (_, c1) ← c.removeUnpromotedSharer name
  pure (c1.printLine ("Nah, I will not give you " ++ name ++ ". " ++ reason),
    MessageProcessing.proceed)

/-- handle_server_message: dispatch on the variant.  (The informational
variants the source merely prints are outside this message model.) -/
def handleServerMessage (c : Conn) (m : ServerMessage) :
    Except SessionErr (Conn × MessageProcessing) :=
  match m with
  | .common common => handleServerCommonMessage c common
  | .agreeFileUpload id => handleServerAgreeFileUpload c id
  | .declineFileUpload id reason => handleServerDeclineFileUpload c id reason
  | .agreeFileDownload name size id => handleServerAgreeFileDownload c name size id
  | .declineFileDownload name reason => handleServerDeclineFileDownload c name reason

/-! The receive loop of client/src/lib.rs (handle_server_messages). -/

/-- What one blocking read_message yields to the loop: a decoded server
message, or a transport/framing/decode error (read_message surfaces all
three the same way). -/
inductive ReadEvent where
  | msg (m : ServerMessage) : ReadEvent
  | failed : ReadEvent
deriving DecidableEq

inductive LoopState where
  | running : LoopState
  | stopped : LoopState
deriving DecidableEq

/-- read_and_handle_server_message: a read error prints the explanation
and yields Stop; a decoded message is dispatched, and a dispatch error
propagates outward. -/
def readAndHandleServerMessage (c : Conn) (e : ReadEvent) :
    Except SessionErr (Conn × MessageProcessing) :=
  match e with
  | .failed => Except.ok (c.printLine "Server Error", MessageProcessing.stop)
  | .msg m => handleServerMessage c m

/-- One iteration of handle_server_messages as a state transition: the
loop stays Running when the iteration proceeds, and is Stopped when it
yields Stop (a read error) or when an error propagates out of it (the
question-mark on the iteration's result). -/
def loopStep (c : Conn) (e : ReadEvent) : Conn × LoopState :=
  match readAndHandleServerMessage c e with
  | Except.ok (c2, MessageProcessing.proceed) => (c2, LoopState.running)
  | Except.ok (c2, MessageProcessing.stop) => (c2, LoopState.stopped)
  | Except.error _ => (c, LoopState.stopped)

/-- The loop states handle_server_messages passes through on a sequence of
read results: processing ends at the first Stopped state — the loop breaks
(or returns the error) and never resumes. -/
def loopStates (c : Conn) : List ReadEvent → List LoopState
  | [] => []
  | e :: es =>
    match loopStep c e with
    | (c2, LoopState.running) => LoopState.running :: loopStates c2 es
    | (_, LoopState.stopped) => [LoopState.stopped]

/-- accept_chunk applied to a sequence of chunks in order: the reported
done flags and the final registry. -/
def runChunks (reg : Registry) (id : Nat) : List (List (Fin 256)) → List Bool × Registry
  | [] => ([], reg)
  | d :: ds =>
    let r := reg.acceptChunk d id
    let rest := runChunks r.2 id ds
    (r.1 :: rest.1, rest.2)

/-- The done flags accept_chunk reports along a chunk sequence, starting
from a given received count. -/
def chunkDones (received size : Nat) : List (List (Fin 256)) → List Bool
  | [] => []
  | d :: ds => (received + d.length == size) :: chunkDones (received + d.length) size ds

/-! C9: id uniqueness over arbitrary registry operation sequences. -/

inductive RegOp where
  | prepareOp (path : String) (contents : List (Fin 256)) (name : String) (dir : Direction)
  | promoteOp (name : String) (size id : Nat)
  | removeByIdOp (id : Nat)
  | removeUnpromotedOp (name : String)
  | acceptChunkOp (data : List (Fin 256)) (id : Nat)
deriving DecidableEq

/-- Apply one registry operation (a failing prepare leaves the registry
unchanged; free_id is pure and allocates without mutating). -/
def applyRegOp (reg : Registry) : RegOp → Registry
  | .prepareOp path contents name dir => (reg.prepare path contents name dir).getD reg
  | .promoteOp name size id => reg.promote name size id
  | .removeByIdOp id => (reg.removeById id).2
  | .removeUnpromotedOp name => (reg.removeUnpromoted name).2
  | .acceptChunkOp data id => (reg.acceptChunk data id).2

/-- A registry built by any operation sequence from the empty one. -/
def runRegOps (ops : List RegOp) : Registry :=
  ops.foldl applyRegOp { byId := [], byName := [] }

/-- Outcomes of one user command, from client commands handling (the
Connect payload is not needed by these claims). -/
inductive CommandProcessing where
  | proceed : CommandProcessing
  | stop : CommandProcessing
deriving DecidableEq

/-- perform_upload_file (client/src/lib.rs): allocate a free id, open the
file and read its size, build the RequestFileUpload message, prepare the
sharer and immediately promote it under the allocated id, and only then
write the request to the server. -/
def performUploadFile (c : Conn) (name path : String) :
    Except SessionErr (Conn × CommandProcessing) := do
  let (id, c1) ← c.freeId
  let contents ← (match c.fs.lookup path with
    | some data => Except.ok data
    | none => Except.error SessionErr.fileMissing)
  let size := contents.length
  let request := ClientMessage.requestFileUpload name size id
  let c2 ← c1.prepareSharer path contents name Direction.upload
  let c3 ← c2.promoteSharer name size id
  let c4 ← c3.writeMessage request
  pure (c4, CommandProcessing.proceed)

/-! Concrete witnesses. -/

/-- An empty registry. -/
def emptyReg : Registry := { byId := [], byName := [] }

/-- A fresh session against an empty registry over a healthy socket. -/
def conn0 : Conn := { reg := emptyReg, netDown := false, fs := [], trace := [] }

/-- A promoted download sharer of size three with nothing received. -/
def sharer3 : Sharer :=
  { name := "f", path := "p", size := 3, received := 0,
    direction := Direction.download, fileData := [] }

/-- A session whose filesystem holds one two-byte file. -/
def connFs : Conn :=
  { reg := emptyReg, netDown := false,
    fs := [("p", [(9 : Fin 256), (8 : Fin 256)])], trace := [] }

/-! Facts about decimal rendering and its front-parse. -/

theorem digitChar_isDigit (d : Nat) (h : d < 10) : (digitChar d).isDigit = true := by
  interval_cases d <;> decide

theorem digitChar_toNat (d : Nat) (h : d < 10) : (digitChar d).toNat = 48 + d := by
  interval_cases d <;> decide

theorem natChars_ne_nil (n : Nat) : natChars n ≠ [] := by
  rw [natChars]
  split <;> simp

theorem natChars_digits (n : Nat) : ∀ c ∈ natChars n, c.isDigit = true := by
  induction n using Nat.strong_induction_on with
  | _ n ih =>
    rw [natChars]
    split
    · intro c hc
      simp at hc
      subst hc
      exact digitChar_isDigit n (by omega)
    · intro c hc
      simp at hc
      rcases hc with hc | hc
      · exact ih (n / 10) (Nat.div_lt_self (by omega) (by omega)) c hc
      · subst hc
        exact digitChar_isDigit (n % 10) (Nat.mod_lt _ (by omega))

theorem takeWhile_append_all (p : Char → Bool) (xs ys : List Char)
    (h : ∀ x ∈ xs, p x = true) :
    (xs ++ ys).takeWhile p = xs ++ ys.takeWhile p := by
  induction xs with
  | nil => simp
  | cons a l ih =>
    have ha : p a = true := h a (List.mem_cons_self a l)
    simp only [List.cons_append, List.takeWhile_cons, ha]
    rw [ih fun x hx => h x (List.mem_cons_of_mem a hx)]
    simp

theorem dropWhile_append_all (p : Char → Bool) (xs ys : List Char)
    (h : ∀ x ∈ xs, p x = true) :
    (xs ++ ys).dropWhile p = ys.dropWhile p := by
  induction xs with
  | nil => simp
  | cons a l ih =>
    have ha : p a = true := h a (List.mem_cons_self a l)
    simp only [List.cons_append, List.dropWhile_cons, ha]
    rw [ih fun x hx => h x (List.mem_cons_of_mem a hx)]
    simp

theorem takeWhile_nil_of_head (p : Char → Bool) (ys : List Char)
    (h : ∀ c, ys.head? = some c → p c = false) :
    ys.takeWhile p = [] := by
  cases ys with
  | nil => rfl
  | cons a l => simp [List.takeWhile_cons, h a rfl]

theorem dropWhile_id_of_head (p : Char → Bool) (ys : List Char)
    (h : ∀ c, ys.head? = some c → p c = false) :
    ys.dropWhile p = ys := by
  cases ys with
  | nil => rfl
  | cons a l => simp [List.dropWhile_cons, h a rfl]

theorem digitsToNat_natChars_aux (n : Nat) :
    ∀ a, (natChars n).foldl (fun a c => a * 10 + (c.toNat - 48)) a
      = a * 10 ^ (natChars n).length + n := by
  induction n using Nat.strong_induction_on with
  | _ n ih =>
    intro a
    rw [natChars]
    split
    · next h =>
      simp [List.foldl, digitChar_toNat n h]
    · next h =>
      rw [List.foldl_append, List.length_append]
      rw [ih (n / 10) (Nat.div_lt_self (by omega) (by omega)) a]
      simp only [List.foldl_cons, List.foldl_nil, List.length_cons, List.length_nil]
      rw [digitChar_toNat (n % 10) (Nat.mod_lt _ (by omega))]
      have hmod : 48 + n % 10 - 48 = n % 10 := by omega
      rw [hmod, pow_succ]
      have hdm : n / 10 * 10 + n % 10 = n := by omega
      calc (a * 10 ^ (natChars (n / 10)).length + n / 10) * 10 + n % 10
          = a * (10 ^ (natChars (n / 10)).length * 10) + (n / 10 * 10 + n % 10) := by ring
        _ = a * (10 ^ (natChars (n / 10)).length * 10) + n := by rw [hdm]

theorem digitsToNat_natChars (n : Nat) : digitsToNat (natChars n) = n := by
  unfold digitsToNat
  rw [digitsToNat_natChars_aux n 0]
  omega

theorem parseNum_ser (n : Int) (rest : List Char)
    (hrest : ∀ c, rest.head? = some c → c.isDigit = false) :
    parseNum (intChars n ++ rest) = some (n, rest) := by
  unfold intChars parseNum
  split
  · next hneg =>
    have hhead : (('-' :: natChars n.natAbs ++ rest).head? = some '-') := by simp
    simp only [List.cons_append, hhead, List.head?_cons, List.tail_cons, if_pos rfl]
    rw [takeWhile_append_all _ _ _ (natChars_digits n.natAbs),
        takeWhile_nil_of_head _ _ hrest,
        dropWhile_append_all _ _ _ (natChars_digits n.natAbs),
        dropWhile_id_of_head _ _ hrest]
    simp [List.isEmpty_eq_true, natChars_ne_nil, digitsToNat_natChars]
    rw [abs_of_neg hneg, neg_neg]
  · next hpos =>
    have hne : (natChars n.toNat ++ rest).head? ≠ some '-' := by
      obtain ⟨c, t, hct⟩ : ∃ c t, natChars n.toNat = c :: t := by
        cases hnc : natChars n.toNat with
        | nil => exact absurd hnc (natChars_ne_nil _)
        | cons c t => exact ⟨c, t, rfl⟩
      have hd : c.isDigit = true := natChars_digits n.toNat c (by rw [hct]; simp)
      rw [hct]
      simp only [List.cons_append, List.head?_cons]
      intro he
      rw [Option.some_inj] at he
      subst he
      simp [Char.isDigit] at hd
    rw [if_neg hne]
    rw [takeWhile_append_all _ _ _ (natChars_digits n.toNat),
        takeWhile_nil_of_head _ _ hrest,
        dropWhile_append_all _ _ _ (natChars_digits n.toNat),
        dropWhile_id_of_head _ _ hrest]
    simp [List.isEmpty_eq_true, natChars_ne_nil, digitsToNat_natChars]
    omega

/-! Facts about string escaping and its front-parse. -/

theorem hexDigitChar_isHexDig (d : Nat) (h : d < 16) : isHexDig (hexDigitChar d) = true := by
  interval_cases d <;> decide

theorem hexVal_hexDigitChar (d : Nat) (h : d < 16) : hexVal (hexDigitChar d) = d := by
  interval_cases d <;> decide

theorem char_ofNat_of_toNat_eq (c : Char) (n : Nat) (h : c.toNat = n) : Char.ofNat n = c := by
  subst h
  exact Char.ofNat_toNat c

theorem parseStrBody_quote (r : List Char) : parseStrBody ('"' :: r) = some ([], r) := by
  rw [parseStrBody.eq_def]
  simp

theorem parseStrBody_escTwo (e : Char) (r : List Char) (he : e ≠ 'u') :
    parseStrBody ('\\' :: e :: r) =
      match unescChar e with
      | some d => (parseStrBody r).map fun (cs, rest) => (d :: cs, rest)
      | none => none := by
  rw [parseStrBody.eq_def]
  simp [he]

theorem parseStrBody_hex (h1 h2 h3 h4 : Char) (r : List Char) :
    parseStrBody ('\\' :: 'u' :: h1 :: h2 :: h3 :: h4 :: r) =
      if isHexDig h1 && isHexDig h2 && isHexDig h3 && isHexDig h4 then
        (parseStrBody r).map fun (cs, rest) =>
          (Char.ofNat (hexVal h1 * 4096 + hexVal h2 * 256 + hexVal h3 * 16 + hexVal h4) :: cs, rest)
      else none := by
  rw [parseStrBody.eq_def]
  simp

theorem parseStrBody_raw (c : Char) (r : List Char) (hq : c ≠ '"') (hb : c ≠ '\\') :
    parseStrBody (c :: r) = (parseStrBody r).map fun (cs, rest) => (c :: cs, rest) := by
  rw [parseStrBody.eq_def]
  simp [hq, hb]

theorem parseStrBody_esc (cs : List Char) (rest : List Char) :
    parseStrBody (escList cs ++ '"' :: rest) = some (cs, rest) := by
  induction cs with
  | nil =>
    show parseStrBody ('"' :: rest) = some ([], rest)
    exact parseStrBody_quote rest
  | cons c l ih =>
    show parseStrBody ((escChar c ++ escList l) ++ '"' :: rest) = some (c :: l, rest)
    rw [List.append_assoc]
    by_cases h1 : c = '"'
    · subst h1
      rw [show escChar '"' = ['\\', '"'] from rfl]
      simp only [List.cons_append, List.nil_append]
      rw [parseStrBody_escTwo _ _ (by decide)]
      simp [unescChar, ih]
    · by_cases h2 : c = '\\'
      · subst h2
        rw [show escChar '\\' = ['\\', '\\'] from rfl]
        simp only [List.cons_append, List.nil_append]
        rw [parseStrBody_escTwo _ _ (by decide)]
        simp [unescChar, ih]
      · by_cases h3 : c = '\n'
        · subst h3
          rw [show escChar '\n' = ['\\', 'n'] from rfl]
          simp only [List.cons_append, List.nil_append]
          rw [parseStrBody_escTwo _ _ (by decide)]
          simp [unescChar, ih]
        · by_cases h4 : c = '\t'
          · subst h4
            rw [show escChar '\t' = ['\\', 't'] from rfl]
            simp only [List.cons_append, List.nil_append]
            rw [parseStrBody_escTwo _ _ (by decide)]
            simp [unescChar, ih]
          · by_cases h5 : c = '\r'
            · subst h5
              rw [show escChar '\r' = ['\\', 'r'] from rfl]
              simp only [List.cons_append, List.nil_append]
              rw [parseStrBody_escTwo _ _ (by decide)]
              simp [unescChar, ih]
            · by_cases h6 : c = '\x08'
              · subst h6
                rw [show escChar '\x08' = ['\\', 'b'] from rfl]
                simp only [List.cons_append, List.nil_append]
                rw [parseStrBody_escTwo _ _ (by decide)]
                simp [unescChar, ih]
              · by_cases h7 : c = '\x0c'
                · subst h7
                  rw [show escChar '\x0c' = ['\\', 'f'] from rfl]
                  simp only [List.cons_append, List.nil_append]
                  rw [parseStrBody_escTwo _ _ (by decide)]
                  simp [unescChar, ih]
                · by_cases h8 : c.toNat < 32
                  · have hesc : escChar c =
                        ['\\', 'u', '0', '0', hexDigitChar (c.toNat / 16), hexDigitChar (c.toNat % 16)] := by
                      simp [escChar, hexEscape, h1, h2, h3, h4, h5, h6, h7, h8]
                    rw [hesc]
                    simp only [List.cons_append, List.nil_append]
                    rw [parseStrBody_hex]
                    have e2 : isHexDig (hexDigitChar (c.toNat / 16)) = true :=
                      hexDigitChar_isHexDig _ (by omega)
                    have e3 : isHexDig (hexDigitChar (c.toNat % 16)) = true :=
                      hexDigitChar_isHexDig _ (by omega)
                    have v2 : hexVal (hexDigitChar (c.toNat / 16)) = c.toNat / 16 :=
                      hexVal_hexDigitChar _ (by omega)
                    have v3 : hexVal (hexDigitChar (c.toNat % 16)) = c.toNat % 16 :=
                      hexVal_hexDigitChar _ (by omega)
                    simp only [e2, e3, v2, v3, ih]
                    have hc : Char.ofNat (c.toNat / 16 * 16 + c.toNat % 16) = c :=
                      char_ofNat_of_toNat_eq c _ (by omega)
                    simp [show hexVal '0' = 0 from by decide,
                      show isHexDig '0' = true from by decide, hc]
                  · have hesc : escChar c = [c] := by
                      simp [escChar, h1, h2, h3, h4, h5, h6, h7, h8]
                    rw [hesc]
                    simp only [List.cons_append, List.nil_append]
                    rw [parseStrBody_raw c _ h1 h2]
                    simp [ih]

/-! A nested induction principle for JSON values and shape facts
about the serializer. -/

theorem json_nested_ind (P : Json → Prop)
    (hnull : P .null) (hbool : ∀ b, P (.bool b)) (hnum : ∀ n, P (.num n))
    (hstr : ∀ s, P (.str s))
    (harr : ∀ xs, (∀ x ∈ xs, P x) → P (.arr xs))
    (hobj : ∀ ms, (∀ m ∈ ms, P m.2) → P (.obj ms)) :
    ∀ v, P v := by
  have key : ∀ k v, sizeOf v ≤ k → P v := by
    intro k
    induction k with
    | zero =>
      intro v hv
      cases v <;> simp at hv
    | succ k ih =>
      intro v hv
      cases v with
      | null => exact hnull
      | bool b => exact hbool b
      | num n => exact hnum n
      | str s => exact hstr s
      | arr xs =>
        refine harr xs fun x hx => ih x ?_
        have h1 := List.sizeOf_lt_of_mem hx
        have h2 : sizeOf (Json.arr xs) = 1 + sizeOf xs := by simp
        omega
      | obj ms =>
        refine hobj ms fun m hm => ih m.2 ?_
        have h1 := List.sizeOf_lt_of_mem hm
        have h2 : sizeOf (Json.obj ms) = 1 + sizeOf ms := by simp
        have h3 : sizeOf m.2 < sizeOf m := by
          obtain ⟨a, b⟩ := m
          simp
        omega
  exact fun v => key (sizeOf v) v (le_refl _)

theorem string_mk_data (s : String) : String.mk s.data = s := by
  cases s
  rfl

theorem digit_ne_of_isDigit (c d : Char) (hc : c.isDigit = true) (hd : d.isDigit = false) :
    c ≠ d := by
  intro h
  subst h
  rw [hd] at hc
  exact Bool.noConfusion hc

theorem natChars_cons (n : Nat) :
    ∃ c t, natChars n = c :: t ∧ c.isDigit = true := by
  cases h : natChars n with
  | nil => exact absurd h (natChars_ne_nil n)
  | cons c t =>
    refine ⟨c, t, rfl, ?_⟩
    exact natChars_digits n c (by rw [h]; simp)

theorem serJson_ne_nil (v : Json) : serJson v ≠ [] := by
  cases v with
  | null => simp [serJson]
  | bool b => cases b <;> simp [serJson]
  | num n =>
    show intChars n ≠ []
    unfold intChars
    split
    · simp
    · exact natChars_ne_nil _
  | str s => simp [serJson, serStr]
  | arr xs => simp [serJson]
  | obj ms => simp [serJson]

theorem serJson_length_pos (v : Json) : 1 ≤ (serJson v).length := by
  cases h : serJson v with
  | nil => exact absurd h (serJson_ne_nil v)
  | cons c t => simp

/-- The first character of a serialized value is never a closing or
separating token. -/
theorem serJson_head_not (v : Json) :
    ∃ c t, serJson v = c :: t ∧ c ≠ ']' ∧ c ≠ '}' ∧ c ≠ ',' := by
  cases v with
  | null => exact ⟨'n', _, rfl, by decide, by decide, by decide⟩
  | bool b =>
    cases b
    · exact ⟨'f', _, rfl, by decide, by decide, by decide⟩
    · exact ⟨'t', _, rfl, by decide, by decide, by decide⟩
  | num n =>
    show ∃ c t, intChars n = c :: t ∧ _
    unfold intChars
    split
    · exact ⟨'-', _, rfl, by decide, by decide, by decide⟩
    · obtain ⟨c, t, hct, hd⟩ := natChars_cons n.toNat
      exact ⟨c, t, hct,
        digit_ne_of_isDigit c _ hd (by decide),
        digit_ne_of_isDigit c _ hd (by decide),
        digit_ne_of_isDigit c _ hd (by decide)⟩
  | str s => exact ⟨'"', _, rfl, by decide, by decide, by decide⟩
  | arr xs => exact ⟨'[', _, rfl, by decide, by decide, by decide⟩
  | obj ms => exact ⟨'{', _, rfl, by decide, by decide, by decide⟩

theorem sepOk_of_head (v : Json) (rest : List Char)
    (h : ∀ c, rest.head? = some c → c.isDigit = false) : sepOk v rest := by
  cases v <;> first
    | exact h
    | trivial

theorem serElemsRest_head_not_digit (xs : List Json) (tail : List Char) :
    ∀ c, (serElemsRest xs ++ ']' :: tail).head? = some c → c.isDigit = false := by
  cases xs with
  | nil =>
    intro c hc
    simp [serElemsRest] at hc
    subst hc
    decide
  | cons x l =>
    intro c hc
    simp [serElemsRest] at hc
    subst hc
    decide

theorem serMembersRest_head_not_digit (ms : List (String × Json)) (tail : List Char) :
    ∀ c, (serMembersRest ms ++ '}' :: tail).head? = some c → c.isDigit = false := by
  cases ms with
  | nil =>
    intro c hc
    simp [serMembersRest] at hc
    subst hc
    decide
  | cons m l =>
    obtain ⟨k, v⟩ := m
    intro c hc
    simp [serMembersRest] at hc
    subst hc
    decide

/-! Round-trip of serialized element and member lists. -/

theorem parseElemsRest_ser (ys : List Json) (hys : ∀ x ∈ ys, SerParses x) :
    ∀ (tail : List Char) (g : Nat),
      2 * (serElemsRest ys ++ ']' :: tail).length + 2 ≤ g →
      parseElemsRest g (serElemsRest ys ++ ']' :: tail) = some (ys, tail) := by
  induction ys with
  | nil =>
    intro tail g hg
    show parseElemsRest g (']' :: tail) = some ([], tail)
    cases g with
    | zero =>
      exfalso
      omega
    | succ g => simp [parseElemsRest]
  | cons x xs ih =>
    intro tail g hg
    have hx : SerParses x := hys x (by simp)
    have hxs : ∀ y ∈ xs, SerParses y := fun y hy => hys y (by simp [hy])
    have hlen := serJson_length_pos x
    simp only [serElemsRest, List.length_append, List.length_cons] at hg
    show parseElemsRest g ((',' :: (serJson x ++ serElemsRest xs)) ++ ']' :: tail)
      = some (x :: xs, tail)
    cases g with
    | zero =>
      exfalso
      omega
    | succ g =>
      simp only [List.cons_append, List.append_assoc]
      simp only [parseElemsRest]
      rw [if_pos trivial]
      rw [hx (serElemsRest xs ++ ']' :: tail) g
          (by simp only [List.length_append, List.length_cons]; omega)
          (sepOk_of_head _ _ (serElemsRest_head_not_digit xs tail))]
      simp [ih hxs tail g (by simp only [List.length_append, List.length_cons]; omega)]

theorem parseElemsFirst_ser (ys : List Json) (hys : ∀ x ∈ ys, SerParses x)
    (tail : List Char) (g : Nat)
    (hg : 2 * (serElems ys ++ ']' :: tail).length + 2 ≤ g) :
    parseElemsFirst g (serElems ys ++ ']' :: tail) = some (ys, tail) := by
  cases ys with
  | nil =>
    show parseElemsFirst g (']' :: tail) = some ([], tail)
    cases g with
    | zero =>
      exfalso
      omega
    | succ g => simp [parseElemsFirst]
  | cons x xs =>
    have hx : SerParses x := hys x (by simp)
    have hxs : ∀ y ∈ xs, SerParses y := fun y hy => hys y (by simp [hy])
    have hlen := serJson_length_pos x
    simp only [serElems, List.length_append, List.length_cons] at hg
    obtain ⟨c0, t0, hct, hc1, hc2, hc3⟩ := serJson_head_not x
    show parseElemsFirst g ((serJson x ++ serElemsRest xs) ++ ']' :: tail)
      = some (x :: xs, tail)
    cases g with
    | zero =>
      exfalso
      omega
    | succ g =>
      rw [List.append_assoc, hct, List.cons_append]
      simp only [parseElemsFirst]
      rw [if_neg hc1]
      rw [← List.cons_append, ← hct]
      rw [hx (serElemsRest xs ++ ']' :: tail) g
          (by simp only [List.length_append, List.length_cons]; omega)
          (sepOk_of_head _ _ (serElemsRest_head_not_digit xs tail))]
      simp [parseElemsRest_ser xs hxs tail g
        (by simp only [List.length_append, List.length_cons]; omega)]

theorem parseMembersRest_ser (ys : List (String × Json))
    (hys : ∀ m ∈ ys, SerParses m.2) :
    ∀ (tail : List Char) (g : Nat),
      2 * (serMembersRest ys ++ '}' :: tail).length + 2 ≤ g →
      parseMembersRest g (serMembersRest ys ++ '}' :: tail) = some (ys, tail) := by
  induction ys with
  | nil =>
    intro tail g hg
    show parseMembersRest g ('}' :: tail) = some ([], tail)
    cases g with
    | zero =>
      exfalso
      omega
    | succ g => simp [parseMembersRest]
  | cons m ms ih =>
    intro tail g hg
    obtain ⟨k, v⟩ := m
    have hv : SerParses v := hys (k, v) (by simp)
    have hms : ∀ y ∈ ms, SerParses y.2 := fun y hy => hys y (by simp [hy])
    have hlen := serJson_length_pos v
    simp only [serMembersRest, serStr, List.length_append, List.length_cons] at hg
    show parseMembersRest g
        ((',' :: (('"' :: (escList k.data ++ ['"'])) ++ ':' :: (serJson v ++ serMembersRest ms)))
          ++ '}' :: tail)
      = some ((k, v) :: ms, tail)
    cases g with
    | zero =>
      exfalso
      omega
    | succ g =>
      simp only [List.cons_append, List.append_assoc]
      simp only [parseMembersRest]
      rw [if_pos trivial]
      simp only [List.nil_append]
      rw [parseStrBody_esc]
      simp [hv (serMembersRest ms ++ '}' :: tail) g
          (by simp only [List.length_append, List.length_cons]; omega)
          (sepOk_of_head _ _ (serMembersRest_head_not_digit ms tail)),
        ih hms tail g (by simp only [List.length_append, List.length_cons]; omega),
        string_mk_data]

theorem parseMembersFirst_ser (ys : List (String × Json))
    (hys : ∀ m ∈ ys, SerParses m.2)
    (tail : List Char) (g : Nat)
    (hg : 2 * (serMembers ys ++ '}' :: tail).length + 2 ≤ g) :
    parseMembersFirst g (serMembers ys ++ '}' :: tail) = some (ys, tail) := by
  cases ys with
  | nil =>
    show parseMembersFirst g ('}' :: tail) = some ([], tail)
    cases g with
    | zero =>
      exfalso
      omega
    | succ g => simp [parseMembersFirst]
  | cons m ms =>
    obtain ⟨k, v⟩ := m
    have hv : SerParses v := hys (k, v) (by simp)
    have hms : ∀ y ∈ ms, SerParses y.2 := fun y hy => hys y (by simp [hy])
    have hlen := serJson_length_pos v
    simp only [serMembers, serStr, List.length_append, List.length_cons] at hg
    show parseMembersFirst g
        ((('"' :: (escList k.data ++ ['"'])) ++ ':' :: (serJson v ++ serMembersRest ms))
          ++ '}' :: tail)
      = some ((k, v) :: ms, tail)
    cases g with
    | zero =>
      exfalso
      omega
    | succ g =>
      simp only [List.cons_append, List.append_assoc]
      simp only [parseMembersFirst]
      rw [if_pos trivial]
      simp only [List.nil_append]
      rw [parseStrBody_esc]
      simp [hv (serMembersRest ms ++ '}' :: tail) g
          (by simp only [List.length_append, List.length_cons]; omega)
          (sepOk_of_head _ _ (serMembersRest_head_not_digit ms tail)),
        parseMembersRest_ser ms hms tail g
          (by simp only [List.length_append, List.length_cons]; omega),
        string_mk_data]

/-! The serializer-parser round trip for whole values. -/

theorem parseVal_ser (v : Json) : SerParses v := by
  induction v using json_nested_ind with
  | hnull =>
    intro rest f hf _
    show parseVal f (['n', 'u', 'l', 'l'] ++ rest) = some (.null, rest)
    cases f with
    | zero =>
      exfalso
      omega
    | succ f => simp [parseVal]
  | hbool b =>
    cases b with
    | false =>
      intro rest f hf _
      show parseVal f (['f', 'a', 'l', 's', 'e'] ++ rest) = some (.bool false, rest)
      cases f with
      | zero =>
        exfalso
        omega
      | succ f => simp [parseVal]
    | true =>
      intro rest f hf _
      show parseVal f (['t', 'r', 'u', 'e'] ++ rest) = some (.bool true, rest)
      cases f with
      | zero =>
        exfalso
        omega
      | succ f => simp [parseVal]
  | hnum n =>
    intro rest f hf hsep
    have hs : ∀ c, rest.head? = some c → c.isDigit = false := hsep
    by_cases hn : n < 0
    · have hser : serJson (.num n) = '-' :: natChars n.natAbs := by
        show intChars n = _
        unfold intChars
        rw [if_pos hn]
      rw [hser] at hf ⊢
      cases f with
      | zero =>
        exfalso
        omega
      | succ f =>
        simp only [List.cons_append]
        simp [parseVal]
        have hback : '-' :: (natChars n.natAbs ++ rest) = intChars n ++ rest := by
          unfold intChars
          rw [if_pos hn]
          simp
        rw [hback, parseNum_ser n rest hs]
    · have hser : serJson (.num n) = natChars n.toNat := by
        show intChars n = _
        unfold intChars
        rw [if_neg hn]
      obtain ⟨c0, t0, hct, hd⟩ := natChars_cons n.toNat
      rw [hser] at hf ⊢
      cases f with
      | zero =>
        exfalso
        omega
      | succ f =>
        rw [hct, List.cons_append]
        simp only [parseVal]
        rw [if_neg (digit_ne_of_isDigit c0 _ hd (by decide)),
            if_neg (digit_ne_of_isDigit c0 _ hd (by decide)),
            if_neg (digit_ne_of_isDigit c0 _ hd (by decide)),
            if_neg (digit_ne_of_isDigit c0 _ hd (by decide)),
            if_neg (digit_ne_of_isDigit c0 _ hd (by decide)),
            if_neg (digit_ne_of_isDigit c0 _ hd (by decide)),
            if_pos (Or.inr hd)]
        have hback : c0 :: (t0 ++ rest) = natChars n.toNat ++ rest := by
          rw [hct]
          simp
        have hback2 : natChars n.toNat ++ rest = intChars n ++ rest := by
          unfold intChars
          rw [if_neg hn]
        rw [hback, hback2, parseNum_ser n rest hs]
        rfl
  | hstr s =>
    intro rest f hf _
    show parseVal f (('"' :: (escList s.data ++ ['"'])) ++ rest) = some (.str s, rest)
    cases f with
    | zero =>
      exfalso
      omega
    | succ f =>
      simp only [List.cons_append, List.append_assoc, List.singleton_append]
      simp [parseVal]
      rw [parseStrBody_esc]
      simp [string_mk_data]
  | harr xs ih =>
    intro rest f hf _
    show parseVal f (('[' :: (serElems xs ++ [']'])) ++ rest) = some (.arr xs, rest)
    cases f with
    | zero =>
      exfalso
      omega
    | succ f =>
      simp only [List.cons_append, List.append_assoc, List.singleton_append]
      simp [parseVal]
      rw [parseElemsFirst_ser xs ih rest f (by
        simp only [List.length_append, List.length_cons] at hf ⊢
        simp only [serJson, List.length_cons, List.length_append, List.length_nil] at hf
        omega)]
  | hobj ms ih =>
    intro rest f hf _
    show parseVal f (('{' :: (serMembers ms ++ ['}'])) ++ rest) = some (.obj ms, rest)
    cases f with
    | zero =>
      exfalso
      omega
    | succ f =>
      simp only [List.cons_append, List.append_assoc, List.singleton_append]
      simp [parseVal]
      rw [parseMembersFirst_ser ms ih rest f (by
        simp only [List.length_append, List.length_cons] at hf ⊢
        simp only [serJson, List.length_cons, List.length_append, List.length_nil] at hf
        omega)]

/-- A serialized value followed by an admissible remainder front-parses to
exactly that value with exactly that remainder. -/
theorem parseOne_ser (v : Json) (rest : List Char) (hsep : sepOk v rest) :
    parseOne (serJson v ++ rest) = some (v, rest) :=
  parseVal_ser v rest _ (by omega) hsep

theorem jsonReaderRead_step (ms : List (String × Json))
    (R : List Char) (chunks : List (List Char)) (cap : Nat)
    (hcap : (serJson (.obj ms)).length ≤ cap)
    (hpend : chunks.flatten = serJson (.obj ms) ++ R) :
    jsonReaderRead cap { chunks := chunks, filled := 0 } =
      Except.ok (Json.obj ms, { chunks := [R], filled := 0 }) := by
  have hL := serJson_length_pos (.obj ms)
  have hs : CappedReader.avail cap { chunks := chunks, filled := 0 } =
      serJson (.obj ms) ++ R.take (cap - (serJson (.obj ms)).length) := by
    show (CappedReader.pending { chunks := chunks, filled := 0 }).take (cap - 0)
      = _
    show (chunks.flatten).take (cap - 0) = _
    rw [hpend, Nat.sub_zero, List.take_append_eq_append_take,
        List.take_of_length_le hcap]
  have hnonempty : (CappedReader.avail cap { chunks := chunks, filled := 0 }).isEmpty = false := by
    rw [hs]
    cases hser : serJson (.obj ms) with
    | nil => exact absurd hser (serJson_ne_nil _)
    | cons c t => simp
  have hparse : parseOne (CappedReader.avail cap { chunks := chunks, filled := 0 })
      = some (Json.obj ms, R.take (cap - (serJson (.obj ms)).length)) := by
    rw [hs]
    exact parseOne_ser (.obj ms) _ trivial
  unfold jsonReaderRead
  simp only [hnonempty, Bool.false_eq_true, if_false, hparse]
  have hdrop : (CappedReader.pending { chunks := chunks, filled := 0 }).drop
      ((CappedReader.avail cap { chunks := chunks, filled := 0 }).length
        - (R.take (cap - (serJson (.obj ms)).length)).length) = R := by
    show (chunks.flatten).drop _ = R
    rw [hpend, hs]
    have hlen : (serJson (.obj ms) ++ R.take (cap - (serJson (.obj ms)).length)).length
        - (R.take (cap - (serJson (.obj ms)).length)).length = (serJson (.obj ms)).length := by
      simp only [List.length_append]
      omega
    rw [hlen]
    exact List.drop_left _ _
  rw [hdrop]

/-- C2: a byte stream that is the back-to-back concatenation of k complete
JSON protocol values (objects, each fitting under the cap), delivered in
any chunking whatsoever — one byte at a time up to all at once — yields
exactly those k values, in order, from k successive calls of the frame
reader's read; no value is lost or duplicated. -/
theorem frame_reader_streams_values (vs : List Json) (chunks : List (List Char)) (cap : Nat)
    (hobj : ∀ v ∈ vs, ∃ ms, v = Json.obj ms)
    (hcap : ∀ v ∈ vs, (serJson v).length ≤ cap)
    (hwire : chunks.flatten = (vs.map serJson).flatten) :
    readValues cap vs.length { chunks := chunks, filled := 0 } = Except.ok vs := by
  induction vs generalizing chunks with
  | nil => simp [readValues]
  | cons v vt ih =>
    obtain ⟨ms, hms⟩ := hobj v (by simp)
    subst hms
    have hstep := jsonReaderRead_step ms ((vt.map serJson).flatten) chunks cap
      (hcap _ (by simp))
      (by rw [hwire]; simp)
    show readValues cap (vt.length + 1) { chunks := chunks, filled := 0 }
      = Except.ok (Json.obj ms :: vt)
    simp only [readValues, hstep]
    rw [ih [(vt.map serJson).flatten] (fun x hx => hobj x (by simp [hx]))
        (fun x hx => hcap x (by simp [hx])) (by simp)]
    rfl

/-- C3: an input longer than the cap whose first cap bytes contain no
complete JSON value makes the frame reader's read fail (with the
NothingToRead or parse-error kind) rather than succeed, and the bytes it
examines are bounded by the cap: no buffering beyond cap occurs. -/
theorem frame_reader_cap_enforced (chunks : List (List Char)) (cap : Nat)
    (_hbig : cap < chunks.flatten.length)
    (hnoval : parseOne (chunks.flatten.take cap) = none) :
    (∃ e, jsonReaderRead cap { chunks := chunks, filled := 0 } = Except.error e) ∧
      (CappedReader.avail cap { chunks := chunks, filled := 0 }).length ≤ cap := by
  have havail : CappedReader.avail cap { chunks := chunks, filled := 0 }
      = chunks.flatten.take cap := by
    show (chunks.flatten).take (cap - 0) = _
    rw [Nat.sub_zero]
  constructor
  · unfold jsonReaderRead
    simp only [havail, hnoval]
    by_cases hz : (chunks.flatten.take cap).isEmpty
    · exact ⟨ReadErrorKind.nothingToRead, by simp [hz]⟩
    · exact ⟨ReadErrorKind.malformed, by simp [hz]⟩
  · rw [havail]
    simp

/-- C1 (code bug): JsonWriter::write uses write, not write_all, and drops
the accepted count.  On a socket that accepts a single byte at this call,
writing the two-byte message O(brace-brace) returns Ok while only the
first byte of the encoding is on the wire: success after a partial write,
against the flush-fully contract. -/
theorem jsonWriter_partial_write_bug :
    ∃ out,
      jsonWriterWrite { wire := [], acceptPerCall := [1] } (Json.obj [])
          = Except.ok out ∧
        out.2.wire ≠ serJson (Json.obj []) ∧
        out.2.wire = ['{'] := by
  refine ⟨((), { wire := ['{'], acceptPerCall := [] }), rfl, by decide, rfl⟩

theorem asByte_round (b : Fin 256) : Json.asByte (encodeByte b) = some b := by
  show Json.asByte (Json.num (b.val : Int)) = some b
  simp only [Json.asByte]
  rw [dif_pos ⟨by positivity, by exact_mod_cast b.isLt⟩]
  simp

theorem asBytes_round (data : List (Fin 256)) :
    Json.asBytes (Json.arr (data.map encodeByte)) = some data := by
  show Json.asBytesList (data.map encodeByte) = some data
  induction data with
  | nil => rfl
  | cons b l ih => simp [Json.asBytesList, asByte_round, ih]

theorem decodeCommon_round (c : CommonMessage) :
    decodeCommon (encodeCommon c) = Except.ok c := by
  cases c with
  | chunk data id =>
    simp [encodeCommon, decodeCommon, fieldOf, Json.getField, Json.asUNat,
      List.lookup, asBytes_round, bind, Except.bind, pure, Except.pure]

/-- C5: for every defined Message variant m, decode (encode m) = m, in
both directions of the protocol; encode is a pure Lean function, hence
side-effect free. -/
theorem codec_round_trip :
    (∀ m : ClientMessage, decodeClient (encodeClient m) = Except.ok m) ∧
    (∀ m : ServerMessage, decodeServer (encodeServer m) = Except.ok m) := by
  constructor
  · intro m
    cases m with
    | common c =>
      show decodeClient (encodeCommon c) = Except.ok (ClientMessage.common c)
      cases c with
      | chunk data id =>
        simp [encodeCommon, decodeClient, fieldOf, Json.getField, Json.asString,
          List.lookup, decodeCommon, Json.asUNat, asBytes_round, bind, Except.bind,
          pure, Except.pure]
    | _ =>
      simp [encodeClient, decodeClient, fieldOf, Json.getField, Json.asString,
        Json.asUNat, List.lookup, bind, Except.bind, pure, Except.pure]
  · intro m
    cases m with
    | common c =>
      show decodeServer (encodeCommon c) = Except.ok (ServerMessage.common c)
      cases c with
      | chunk data id =>
        simp [encodeCommon, decodeServer, fieldOf, Json.getField, Json.asString,
          List.lookup, decodeCommon, Json.asUNat, asBytes_round, bind, Except.bind,
          pure, Except.pure]
    | _ =>
      simp [encodeServer, decodeServer, fieldOf, Json.getField, Json.asString,
        Json.asUNat, List.lookup, bind, Except.bind, pure, Except.pure]

theorem handleServerMessage_ok_proceed (c : Conn) (m : ServerMessage)
    (out : Conn × MessageProcessing) (h : handleServerMessage c m = Except.ok out) :
    out.2 = MessageProcessing.proceed := by
  cases m with
  | common common =>
    cases common with
    | chunk data id =>
      simp only [handleServerMessage, handleServerCommonMessage, handleServerChunk,
        Conn.acceptChunk, Conn.removeSharer, bind, Except.bind, pure, Except.pure] at h
      split at h
      · cases h
        rfl
      · split at h <;> (cases h; rfl)
  | agreeFileUpload id =>
    simp only [handleServerMessage, handleServerAgreeFileUpload, Conn.removeSharer,
      sendFileNonBlocking, bind, Except.bind, pure, Except.pure] at h
    split at h <;> (cases h; rfl)
  | declineFileUpload id reason =>
    simp only [handleServerMessage, handleServerDeclineFileUpload, Conn.removeSharer,
      bind, Except.bind, pure, Except.pure] at h
    split at h <;> (cases h; rfl)
  | agreeFileDownload name size id =>
    simp only [handleServerMessage, handleServerAgreeFileDownload, Conn.promoteSharer,
      Conn.writeMessage, bind, Except.bind, pure, Except.pure] at h
    split at h
    · cases h
    · cases h
      rfl
  | declineFileDownload name reason =>
    simp only [handleServerMessage, handleServerDeclineFileDownload,
      Conn.removeUnpromotedSharer, bind, Except.bind, pure, Except.pure] at h
    cases h
    rfl

/-- C4: the receive loop as a state machine over Running and Stopped: it
stays Running on every successfully dispatched decoded message, becomes
Stopped and exits on any stream or parse error — a failed read, or an
error out of the dispatch of a decoded message (a malformed message from
the peer surfaces as a failed read) — and there is no transition from
Stopped back to Running: once Stopped appears in the loop's state trace,
every later state is Stopped (it is the final one). -/
theorem receive_loop_state_machine :
    (∀ (c : Conn) (m : ServerMessage) (out : Conn × MessageProcessing),
        handleServerMessage c m = Except.ok out →
        loopStep c (ReadEvent.msg m) = (out.1, LoopState.running)) ∧
    (∀ (c : Conn) (m : ServerMessage) (e : SessionErr),
        handleServerMessage c m = Except.error e →
        (loopStep c (ReadEvent.msg m)).2 = LoopState.stopped) ∧
    (∀ c : Conn, (loopStep c ReadEvent.failed).2 = LoopState.stopped) ∧
    (∀ (c : Conn) (events : List ReadEvent) (i j : Nat), i ≤ j →
        j < (loopStates c events).length →
        (loopStates c events).get? i = some LoopState.stopped →
        (loopStates c events).get? j = some LoopState.stopped) := by
  refine ⟨?_, ?_, ?_, ?_⟩
  · intro c m out h
    have hp := handleServerMessage_ok_proceed c m out h
    obtain ⟨c2, p⟩ := out
    simp only at hp
    subst hp
    simp [loopStep, readAndHandleServerMessage, h]
  · intro c m e h
    simp [loopStep, readAndHandleServerMessage, h]
  · intro c
    rfl
  · intro c events
    induction events generalizing c with
    | nil =>
      intro i j _ hj _
      simp [loopStates] at hj
    | cons e es ih =>
      intro i j hij hj hi
      unfold loopStates at hj hi ⊢
      cases hstep : loopStep c e with
      | mk c2 st =>
        cases st with
        | running =>
          rw [hstep] at hj hi
          dsimp only at hj hi
          cases i with
          | zero => simp at hi
          | succ i =>
            cases j with
            | zero => omega
            | succ j =>
              simp only [List.get?_cons_succ] at hi ⊢
              simp only [List.length_cons] at hj
              exact ih c2 i j (by omega) (by omega) hi
        | stopped =>
          rw [hstep] at hj hi
          dsimp only at hj hi
          simp only [List.length_cons, List.length_nil] at hj
          have hj0 : j = 0 := by omega
          subst hj0
          rfl

/-- C6: on AgreeFileDownload(name, size, id) from the server the client
first promotes the pending download by name (binding it to the id) and
then writes exactly one AgreeFileDownload(id) reply, in that order, as the
appended trace shows; the handler performs no chunk-accepting action at
all, and since the receive loop handles messages sequentially, no chunk
for that download can be accepted before the reply has been written. -/
theorem agree_file_download_promote_then_reply (c : Conn) (name : String) (size id : Nat)
    (hnet : c.netDown = false) :
    handleServerAgreeFileDownload c name size id =
      Except.ok
        ({ c with reg := c.reg.promote name size id,
                  trace := c.trace ++
                    [TraceAction.promoted name size id,
                     TraceAction.wrote (ClientMessage.agreeFileDownload id)] },
         MessageProcessing.proceed) ∧
    (∀ data cid,
      TraceAction.acceptedChunk data cid ∉
        [TraceAction.promoted name size id,
         TraceAction.wrote (ClientMessage.agreeFileDownload id)]) := by
  constructor
  · simp [handleServerAgreeFileDownload, Conn.promoteSharer, Conn.writeMessage, hnet,
      bind, Except.bind, pure, Except.pure]
  · intro data cid
    simp

theorem lookup_update_self (id : Nat) (s2 : Sharer) :
    ∀ (l : List (Nat × Sharer)) (s : Sharer), l.lookup id = some s →
      (l.map fun p => if p.1 = id then (p.1, s2) else p).lookup id = some s2 := by
  intro l
  induction l with
  | nil =>
    intro s h
    simp [List.lookup] at h
  | cons p t ih =>
    intro s h
    obtain ⟨k, v⟩ := p
    by_cases hk : id = k
    · subst hk
      simp only [List.map_cons, if_pos rfl]
      simp [List.lookup]
    · have hbeq : (id == k) = false := by simp [hk]
      have hkid : ¬(k = id) := fun he => hk (Eq.symm he)
      simp only [List.lookup, hbeq] at h
      simp only [List.map_cons, if_neg hkid]
      simp [List.lookup, hbeq]
      exact ih s h

theorem acceptChunk_found (reg : Registry) (data : List (Fin 256)) (id : Nat) (s : Sharer)
    (h : reg.byId.lookup id = some s) :
    reg.acceptChunk data id =
      (s.received + data.length == s.size,
       { reg with byId := reg.byId.map fun p =>
           if p.1 = id then
             (p.1, { s with received := s.received + data.length,
                            fileData := s.fileData ++ data })
           else p }) := by
  unfold Registry.acceptChunk
  rw [h]

theorem runChunks_spec (id : Nat) :
    ∀ (chunks : List (List (Fin 256))) (reg : Registry) (s : Sharer),
      reg.byId.lookup id = some s →
      (runChunks reg id chunks).1 = chunkDones s.received s.size chunks ∧
      (runChunks reg id chunks).2.byId.lookup id =
        some { s with received := s.received + (chunks.map List.length).sum,
                      fileData := s.fileData ++ chunks.flatten } := by
  intro chunks
  induction chunks with
  | nil =>
    intro reg s h
    refine ⟨rfl, ?_⟩
    show reg.byId.lookup id = _
    simpa using h
  | cons d ds ih =>
    intro reg s h
    have hstep := acceptChunk_found reg d id s h
    have hlook2 : (reg.acceptChunk d id).2.byId.lookup id =
        some { s with received := s.received + d.length,
                      fileData := s.fileData ++ d } := by
      rw [hstep]
      exact lookup_update_self id _ reg.byId s h
    obtain ⟨ih1, ih2⟩ := ih (reg.acceptChunk d id).2 _ hlook2
    constructor
    · show (reg.acceptChunk d id).1 :: (runChunks (reg.acceptChunk d id).2 id ds).1 = _
      rw [ih1, hstep]
      rfl
    · show (runChunks (reg.acceptChunk d id).2 id ds).2.byId.lookup id = _
      rw [ih2]
      simp [List.append_assoc]
      omega

theorem chunkDones_exact (N : Nat) :
    ∀ (chunks : List (List (Fin 256))) (r : Nat), chunks ≠ [] →
      (∀ d ∈ chunks, d ≠ []) → r + (chunks.map List.length).sum = N →
      chunkDones r N chunks = List.replicate (chunks.length - 1) false ++ [true] := by
  intro chunks
  induction chunks with
  | nil =>
    intro r h
    exact absurd rfl h
  | cons d ds ih =>
    intro r _ hparts htot
    cases ds with
    | nil =>
      have hdn : r + d.length = N := by
        simp at htot
        omega
      show ((r + d.length == N) :: chunkDones (r + d.length) N []) = _
      simp [chunkDones, hdn]
    | cons d2 ds2 =>
      have hd2 : d2 ≠ [] := hparts d2 (by simp)
      have hlen2 : 0 < d2.length := List.length_pos.mpr hd2
      simp only [List.map_cons, List.sum_cons] at htot
      have hlt : r + d.length < N := by omega
      have hbeq : (r + d.length == N) = false := by
        simp
        omega
      show ((r + d.length == N) :: chunkDones (r + d.length) N (d2 :: ds2)) = _
      rw [hbeq, ih (r + d.length) (by simp) (fun x hx => hparts x (by simp [hx]))
          (by simp; omega)]
      simp [List.replicate_succ]

/-- C7: a registered download sharer with size N and nothing received,
fed a partition of N bytes into nonempty chunks in order, reports done
exactly once — at the call whose data brings the running count to N — and
false at every earlier call; and after any prefix of the calls the
sharer's received count never exceeds its size. -/
theorem chunk_accounting (reg : Registry) (id N : Nat) (s : Sharer)
    (hs : reg.byId.lookup id = some s) (hsize : s.size = N) (hrecv : s.received = 0)
    (chunks : List (List (Fin 256)))
    (hne : chunks ≠ []) (hparts : ∀ d ∈ chunks, d ≠ [])
    (htotal : (chunks.map List.length).sum = N) :
    (runChunks reg id chunks).1 = List.replicate (chunks.length - 1) false ++ [true] ∧
    (∀ i s2, (runChunks reg id (chunks.take i)).2.byId.lookup id = some s2 →
      s2.received ≤ s2.size) := by
  constructor
  · obtain ⟨h1, _⟩ := runChunks_spec id chunks reg s hs
    rw [h1, hrecv, hsize]
    exact chunkDones_exact N chunks 0 hne hparts (by omega)
  · intro i s2 h2
    obtain ⟨_, hlook⟩ := runChunks_spec id (chunks.take i) reg s hs
    rw [hlook] at h2
    have hinj := Option.some.inj h2
    subst hinj
    show s.received + ((chunks.take i).map List.length).sum ≤ s.size
    have hsum : ((chunks.take i).map List.length).sum ≤ (chunks.map List.length).sum := by
      conv_rhs => rw [← List.take_append_drop i chunks]
      rw [List.map_append, List.sum_append]
      omega
    omega

theorem lookup_filter_ne_self (id : Nat) :
    ∀ (l : List (Nat × Sharer)),
      (l.filter fun p => p.1 ≠ id).lookup id = none := by
  intro l
  induction l with
  | nil => rfl
  | cons p t ih =>
    obtain ⟨k, v⟩ := p
    by_cases hk : k = id
    · subst hk
      simp only [List.filter_cons]
      rw [if_neg (by simp)]
      exact ih
    · simp only [List.filter_cons]
      rw [if_pos (by simp [hk])]
      simp only [List.lookup]
      have hbeq : (id == k) = false := by
        simp
        omega
      simp only [hbeq]
      exact ih

/-- C8: accept_chunk for an id with no registered sharer returns done =
false and no error, and leaves the registry — hence every file — exactly
as it was (the only state change is the record of the call in the trace);
moreover removing a sharer by id leaves no sharer under that id, so every
later chunk naming a removed id meets exactly this no-op. -/
theorem stray_chunk_noop (c : Conn) (data : List (Fin 256)) (id : Nat)
    (h : c.reg.byId.lookup id = none) :
    c.acceptChunk data id =
      Except.ok (false,
        { c with trace := c.trace ++ [TraceAction.acceptedChunk data id] }) ∧
    (∀ reg : Registry, (reg.removeById id).2.byId.lookup id = none) := by
  constructor
  · show Except.ok ((c.reg.acceptChunk data id).1, _) = _
    unfold Registry.acceptChunk
    rw [h]
  · intro reg
    unfold Registry.removeById
    cases hl : reg.byId.lookup id with
    | none => exact hl
    | some s => exact lookup_filter_ne_self id reg.byId

theorem filter_keys_nodup (l : List (Nat × Sharer)) (p : Nat × Sharer → Bool)
    (h : (l.map Prod.fst).Nodup) : ((l.filter p).map Prod.fst).Nodup :=
  List.Nodup.sublist (List.Sublist.map Prod.fst (List.filter_sublist l)) h

theorem filter_ne_not_mem (l : List (Nat × Sharer)) (id : Nat) :
    id ∉ (l.filter fun q => q.1 ≠ id).map Prod.fst := by
  intro hmem
  obtain ⟨q, hq, hfst⟩ := List.mem_map.mp hmem
  have hprop := List.of_mem_filter hq
  simp at hprop
  exact hprop hfst

theorem applyRegOp_nodup (reg : Registry) (op : RegOp)
    (h : (reg.byId.map Prod.fst).Nodup) :
    ((applyRegOp reg op).byId.map Prod.fst).Nodup := by
  cases op with
  | prepareOp path contents name dir =>
    show (((reg.prepare path contents name dir).getD reg).byId.map Prod.fst).Nodup
    unfold Registry.prepare
    split
    · simpa using h
    · simpa using h
  | promoteOp name size id =>
    show ((reg.promote name size id).byId.map Prod.fst).Nodup
    unfold Registry.promote
    split
    · exact h
    · simp only [List.map_cons]
      exact List.nodup_cons.mpr ⟨filter_ne_not_mem reg.byId id, filter_keys_nodup _ _ h⟩
  | removeByIdOp id =>
    show ((reg.removeById id).2.byId.map Prod.fst).Nodup
    unfold Registry.removeById
    split
    · exact h
    · exact filter_keys_nodup _ _ h
  | removeUnpromotedOp name =>
    show ((reg.removeUnpromoted name).2.byId.map Prod.fst).Nodup
    unfold Registry.removeUnpromoted
    split
    · exact h
    · exact h
  | acceptChunkOp data id =>
    show ((reg.acceptChunk data id).2.byId.map Prod.fst).Nodup
    unfold Registry.acceptChunk
    split
    · exact h
    · next s heq =>
      have hkeys : ((reg.byId.map fun p =>
          if p.1 = id then
            (p.1, { s with received := s.received + data.length,
                           fileData := s.fileData ++ data })
          else p).map Prod.fst) = reg.byId.map Prod.fst := by
        rw [List.map_map]
        apply List.map_congr_left
        intro p _
        by_cases hp : p.1 = id <;> simp [hp]
      show ((reg.byId.map fun p =>
          if p.1 = id then
            (p.1, { s with received := s.received + data.length,
                           fileData := s.fileData ++ data })
          else p).map Prod.fst).Nodup
      rw [hkeys]
      exact h

theorem mem_keys_le_max (l : List (Nat × Sharer)) (k : Nat) (h : k ∈ l.map Prod.fst) :
    k ≤ (l.map Prod.fst).foldr max 0 := by
  induction l with
  | nil => simp at h
  | cons p t ih =>
    simp only [List.map_cons, List.foldr_cons]
    simp only [List.map_cons, List.mem_cons] at h
    rcases h with h | h
    · subst h
      exact le_max_left _ _
    · exact le_trans (ih h) (le_max_right _ _)

theorem lookup_eq_none_of_not_mem (id : Nat) :
    ∀ (l : List (Nat × Sharer)), id ∉ l.map Prod.fst → l.lookup id = none := by
  intro l
  induction l with
  | nil =>
    intro
    rfl
  | cons p t ih =>
    intro h
    simp only [List.map_cons, List.mem_cons] at h
    push_neg at h
    obtain ⟨h1, h2⟩ := h
    simp only [List.lookup]
    have hbeq : (id == p.1) = false := by simp [h1]
    simp only [hbeq]
    exact ih h2

theorem freeId_lookup_none (reg : Registry) : reg.byId.lookup reg.freeId = none := by
  apply lookup_eq_none_of_not_mem
  intro hmem
  have hle := mem_keys_le_max reg.byId _ hmem
  unfold Registry.freeId at hle
  omega

/-- C9: after any sequence of registry operations starting from the empty
registry, the live promoted sharers hold pairwise distinct ids (the id
table is keyed by id, and promoting onto an id replaces any previous
binding), and the id free_id hands out is never currently in use in the
id table. -/
theorem id_uniqueness (ops : List RegOp) :
    ((runRegOps ops).byId.map Prod.fst).Nodup ∧
    (runRegOps ops).byId.lookup ((runRegOps ops).freeId) = none := by
  constructor
  · have key : ∀ (l : List RegOp) (reg : Registry), (reg.byId.map Prod.fst).Nodup →
        ((l.foldl applyRegOp reg).byId.map Prod.fst).Nodup := by
      intro l
      induction l with
      | nil =>
        intro reg h
        exact h
      | cons op t ih =>
        intro reg h
        exact ih _ (applyRegOp_nodup reg op h)
    exact key ops _ (by simp)
  · exact freeId_lookup_none _

/-- C10: when the UploadFile command completes successfully, the trace
shows free_id, prepare and promote all happening before the
RequestFileUpload message is written — so the registry already holds the
promoted sharer under the locally allocated id, with the file's size,
before the server could have sent any authorization — and the final
registry indeed holds that promoted sharer. -/
theorem upload_promotes_before_request (c : Conn) (name path : String)
    (contents : List (Fin 256))
    (hfile : c.fs.lookup path = some contents)
    (hpend : c.reg.byName.lookup name = none)
    (hnet : c.netDown = false) :
    (performUploadFile c name path).map
        (fun r => (r.1.trace, r.1.reg.byId.lookup c.reg.freeId, r.2)) =
      Except.ok
        (c.trace ++
          [TraceAction.freedId c.reg.freeId,
           TraceAction.prepared path name,
           TraceAction.promoted name contents.length c.reg.freeId,
           TraceAction.wrote
             (ClientMessage.requestFileUpload name contents.length c.reg.freeId)],
         some { name := name, path := path, size := contents.length, received := 0,
                direction := Direction.upload, fileData := contents },
         CommandProcessing.proceed) := by
  simp only [performUploadFile, Conn.freeId, hfile, Conn.prepareSharer, Registry.prepare,
    hpend, Conn.promoteSharer, Registry.promote, Conn.writeMessage, hnet,
    bind, Except.bind, pure, Except.pure, Option.isSome_none, Bool.false_eq_true,
    if_false, List.lookup]
  simp [Except.map, List.lookup]

/-- Witness for C2: two braces-only values delivered one byte at a time
are read back as exactly those two values. -/
theorem frame_reader_streams_values_witness :
    readValues 8 2 { chunks := [['{'], ['}'], ['{'], ['}']], filled := 0 }
      = Except.ok [Json.obj [], Json.obj []] := by
  have h := frame_reader_streams_values [Json.obj [], Json.obj []]
    [['{'], ['}'], ['{'], ['}']] 8
    (by
      intro v hv
      simp at hv
      rcases hv with rfl | rfl <;> exact ⟨[], rfl⟩)
    (by
      intro v hv
      simp at hv
      rcases hv with rfl | rfl <;> norm_num [serJson, serMembers])
    (by norm_num [serJson, serMembers])
  simpa using h

/-- Witness for C3: six open brackets under a cap of four make the read
fail with the examined bytes bounded by the cap. -/
theorem frame_reader_cap_enforced_witness :
    (∃ e, jsonReaderRead 4 { chunks := [['[', '[', '[', '[', '[', '[']], filled := 0 }
        = Except.error e) ∧
      (CappedReader.avail 4
        { chunks := [['[', '[', '[', '[', '[', '[']], filled := 0 }).length ≤ 4 :=
  frame_reader_cap_enforced [['[', '[', '[', '[', '[', '[']] 4 (by decide) (by rfl)

/-- Witness for C4: a dispatched message keeps the loop Running, a failed
read stops it. -/
theorem receive_loop_state_machine_witness :
    loopStep conn0 (ReadEvent.msg (ServerMessage.agreeFileUpload 5)) =
      ({ conn0 with trace := [TraceAction.removedById 5] }, LoopState.running) ∧
    (loopStep conn0 ReadEvent.failed).2 = LoopState.stopped :=
  ⟨receive_loop_state_machine.1 conn0 (ServerMessage.agreeFileUpload 5)
      ({ conn0 with trace := [TraceAction.removedById 5] }, MessageProcessing.proceed) rfl,
    receive_loop_state_machine.2.2.1 conn0⟩

/-- Witness for C6 at a concrete agreement. -/
theorem agree_file_download_promote_then_reply_witness :
    handleServerAgreeFileDownload conn0 "file" 3 9 =
      Except.ok
        ({ conn0 with reg := conn0.reg.promote "file" 3 9,
                      trace := [TraceAction.promoted "file" 3 9,
                                TraceAction.wrote (ClientMessage.agreeFileDownload 9)] },
         MessageProcessing.proceed) := by
  have h := (agree_file_download_promote_then_reply conn0 "file" 3 9 rfl).1
  simpa [conn0] using h

/-- Witness for C7: three one-byte chunks into a size-three sharer
report done exactly at the third call. -/
theorem chunk_accounting_witness :
    (runChunks { byId := [(4, sharer3)], byName := [] } 4
        [[(1 : Fin 256)], [(2 : Fin 256)], [(3 : Fin 256)]]).1
      = List.replicate 2 false ++ [true] := by
  have h := (chunk_accounting { byId := [(4, sharer3)], byName := [] } 4 3 sharer3
      rfl rfl rfl [[(1 : Fin 256)], [(2 : Fin 256)], [(3 : Fin 256)]]
      (by simp)
      (by
        intro d hd
        simp at hd
        rcases hd with rfl | rfl | rfl <;> simp)
      (by rfl)).1
  simpa using h

/-- Witness for C8: a chunk for an unregistered id is a no-op. -/
theorem stray_chunk_noop_witness :
    conn0.acceptChunk [(7 : Fin 256)] 5 =
      Except.ok (false,
        { conn0 with trace := [TraceAction.acceptedChunk [(7 : Fin 256)] 5] }) := by
  have h := (stray_chunk_noop conn0 [(7 : Fin 256)] 5 rfl).1
  simpa [conn0] using h

/-- Witness for C10 at a concrete two-byte upload. -/
theorem upload_promotes_before_request_witness :
    (performUploadFile connFs "n" "p").map
        (fun r => (r.1.trace, r.1.reg.byId.lookup connFs.reg.freeId, r.2)) =
      Except.ok
        ([TraceAction.freedId 1, TraceAction.prepared "p" "n",
          TraceAction.promoted "n" 2 1,
          TraceAction.wrote (ClientMessage.requestFileUpload "n" 2 1)],
         some { name := "n", path := "p", size := 2, received := 0,
                direction := Direction.upload,
                fileData := [(9 : Fin 256), (8 : Fin 256)] },
         CommandProcessing.proceed) := by
  have h := upload_promotes_before_request connFs "n" "p"
    [(9 : Fin 256), (8 : Fin 256)] rfl rfl rfl
  simpa [connFs, emptyReg, Registry.freeId] using h
